import Mathlib

/-!
Verification of the tree-reduction planner and combinable aggregate
algorithms of `dask/array/reductions.py` (early dask).

The Python source is shallowly embedded below.  Python dicts keyed by axis
indices become association lists (`alookup` models `dict.get` / `in`),
`toolz.partition_all` becomes `partitionAll`, `itertools.product` becomes
`cartesianProduct`, `numpy` float arithmetic on sufficient-statistic records
is modelled exactly over `ℚ`, and `math.ceil(math.log(n, b))` is modelled by
the exact ceiling logarithm `ceilLog` (a structural twin of `Nat.clog`).
-/

/-- Association-list lookup, modelling Python `dict` access for dicts built
by the planner (`d.get(k)` / `k in d`).  First match wins; the dicts built
by the source never carry conflicting duplicate keys. -/
def alookup {α β : Type} [DecidableEq α] : List (α × β) → α → Option β
  | [], _ => none
  | p :: ps, k => if p.1 = k then some p.2 else alookup ps k

/-- Fuel-driven core of `partitionAll`; fuel `≥ l.length` suffices whenever
the group size `n` is at least 1. -/
def partitionAllAux {α : Type} (n : Nat) : Nat → List α → List (List α)
  | _, [] => []
  | 0, _ :: _ => []
  | fuel + 1, x :: xs => (x :: xs).take n :: partitionAllAux n fuel ((x :: xs).drop n)

/-- Model of `toolz.partition_all(n, seq)`: consecutive groups of size `n`,
the last group possibly shorter.  For `n < 1`, `toolz` builds
`zip_longest(*([iter(seq)] * n))` with an empty argument list, which yields
no groups at all; hence the `n = 0` branch returns `[]`. -/
def partitionAll {α : Type} (n : Nat) (l : List α) : List (List α) :=
  if n = 0 then [] else partitionAllAux n l.length l

/-- Model of `itertools.product(*lists)`: leftmost factor varies slowest. -/
def cartesianProduct {α : Type} : List (List α) → List (List α)
  | [] => [[]]
  | l :: ls => l.flatMap (fun x => (cartesianProduct ls).map (fun r => x :: r))

/-- Exact ceiling logarithm, fuel-driven structural twin of `Nat.clog`
(modelling `math.ceil(math.log(n, b))`, which the source computes with
float arithmetic; we model the exact mathematical value). -/
def ceilLogAux (b : Nat) : Nat → Nat → Nat
  | 0, _ => 0
  | fuel + 1, n => if 1 < n then ceilLogAux b fuel ((n + b - 1) / b) + 1 else 0

/-- `ceilLog b n` computes `⌈log_b n⌉`, i.e. the least `k` with `n ≤ b ^ k`
(for `b ≥ 2`, `n ≥ 1`). -/
def ceilLog (b n : Nat) : Nat := ceilLogAux b n n

/-- Largest `k` with `k ^ m ≤ b`, modelling `int(b ** (1/m))` computed
exactly (the source uses float exponentiation; we model the exact floor
of the real `m`-th root). -/
def floorRoot (b m : Nat) : Nat :=
  ((List.range (b + 1)).filter (fun k => k ^ m ≤ b)).foldl max 0

/-! ### Axis normalization (`reduction`, lines 24-28) -/

/-- Model of `i if i >= 0 else x.ndim + i` (line 28 of `reduction`).
Note the source performs a single addition, not a true modulo, and has no
range or duplicate validation. -/
def normalizeAxis (ndim i : Int) : Int := if 0 ≤ i then i else ndim + i

/-- Normalization of a whole requested axis tuple (line 28). -/
def normalizeAxes (ndim : Int) (axes : List Int) : List Int :=
  axes.map (normalizeAxis ndim)

/-- A Python `axis=` argument as supplied by callers: `None`, an `int`, or a
tuple of ints. -/
inductive PyAxis where
  | none
  | int (i : Int)
  | tuple (l : List Int)
deriving DecidableEq

/-- Axis resolution of `reduction` (lines 24-28): `None` becomes all axes,
an int becomes a one-tuple, then each entry is normalized. -/
def reductionAxes (ndim : Nat) : PyAxis → List Int
  | .none => normalizeAxes ndim ((List.range ndim).map Int.ofNat)
  | .int i => normalizeAxes ndim [i]
  | .tuple l => normalizeAxes ndim l

/-- Model of the wrapper in `arg_reduction` (lines 456-458):
`if axis < 0: axis = a.ndim + axis`.  Under Python 3 comparison semantics
`None < 0` and `(…,) < 0` raise `TypeError`, so only a plain integer axis
is accepted; this is the embedded error. -/
def argAxisNormalize (ndim : Int) : PyAxis → Except String Int
  | .int i => Except.ok (if i < 0 then ndim + i else i)
  | .none => Except.error "TypeError: NoneType and int are not orderable"
  | .tuple _ => Except.error "TypeError: tuple and int are not orderable"

/-! ### Fan-in resolution (`reduction`, lines 36-42) -/

/-- The `max_leaves` argument of `reduction`: unspecified (`None`), a scalar
budget (`int`), or an explicit per-axis dict. -/
inductive FaninSpec where
  | unspecified
  | budget (b : Nat)
  | perAxis (d : List (Nat × Nat))

/-- Fan-in resolution, lines 36-42 of `reduction`:
dict case `dict((k, max_leaves.get(k, 2)) for k in axis)`;
int case `dict.fromkeys(axis, max(int(max_leaves ** (1/len(axis))), 2))`;
else `dict((k, v) for (k, v) in enumerate(x.numblocks) if k in axis)`. -/
def resolveFanin (spec : FaninSpec) (axes : List Nat) (nb : List Nat) :
    List (Nat × Nat) :=
  match spec with
  | .perAxis d => axes.map (fun k => (k, (alookup d k).getD 2))
  | .budget b => axes.map (fun k => (k, max (floorRoot b axes.length) 2))
  | .unspecified =>
      (List.range nb.length).filterMap
        (fun i => if i ∈ axes then some (i, nb.getD i 0) else none)

/-! ### Tree-depth computation (`reduction`, lines 51-54) -/

/-- One pass of the depth loop
`for i, n in enumerate(tmp.numblocks): if i in max_leaves and
max_leaves[i] != 1: depth = max(depth, ceil(log(n, max_leaves[i])))`.
`math.log` raises `ValueError: math domain error` when the base is `0`
(or when `n = 0`), which the `Except.error` branches model. -/
def depthLoop (ml : List (Nat × Nat)) (nb : List Nat) :
    List Nat → Nat → Except String Nat
  | [], d => Except.ok d
  | i :: is, d =>
    match alookup ml i with
    | some f =>
      if f = 1 then depthLoop ml nb is d
      else if f = 0 then Except.error "ValueError: math domain error"
      else if nb.getD i 0 = 0 then Except.error "ValueError: math domain error"
      else depthLoop ml nb is (max d (ceilLog f (nb.getD i 0)))
    | Option.none => depthLoop ml nb is d

/-- Tree depth of the reduction plan (lines 51-54), starting from `depth = 1`. -/
def computeDepth (ml : List (Nat × Nat)) (nb : List Nat) : Except String Nat :=
  depthLoop ml nb (List.range nb.length) 1

/-- The contribution of axis `i` to the planned depth: `ceil(log(n, f))` for
a reduced axis with fan-in `f ≠ 1`, and `0` (no contribution) otherwise. -/
def depthContrib (ml : List (Nat × Nat)) (nb : List Nat) (i : Nat) : Nat :=
  match alookup ml i with
  | some f => if f = 1 then 0 else ceilLog f (nb.getD i 0)
  | Option.none => 0

/-- A stage of the reduction plan: an intermediate combine level
(`partial_reduce` with the combine function, line 58) or the final
aggregation level (line 61). -/
inductive Stage where
  | combine
  | aggregate
deriving DecidableEq, BEq

/-- The sequence of tree levels built by `reduction` lines 57-61:
`for i in range(depth - 1): tmp = partial_reduce(combine …)` followed by the
single final `partial_reduce(aggregate …)`. -/
def reductionStages (ml : List (Nat × Nat)) (nb : List Nat) :
    Except String (List Stage) :=
  (computeDepth ml nb).map
    (fun depth => List.replicate (depth - 1) Stage.combine ++ [Stage.aggregate])

/-! ### `partial_reduce` (lines 65-99) -/

/-- A task in the graph: the list of input-block keys it gathers.  The source
builds a nested `lol_tuples` structure over the group's block coordinates;
we record the flat list of referenced keys `(x.name, coords)`. -/
abbrev GraphKey : Type := String × List Nat

/-- A chunked array: content-hash name, per-axis chunk (block-size) lists,
and the immutable task graph (association list from keys to the referenced
input keys).  `numblocks` is derived as the per-axis chunk count. -/
structure CArray where
  name : String
  chunks : List (List Nat)
  dask : List (GraphKey × List GraphKey)

/-- `x.numblocks`: per-axis number of blocks. -/
def numblocksOf (x : CArray) : List Nat := x.chunks.map List.length

/-- `parts = [list(partition_all(max_leaves.get(i, 1), range(n))) for (i, n)
in enumerate(x.numblocks)]` (lines 83-84). -/
def partsOf (x : CArray) (ml : List (Nat × Nat)) : List (List (List Nat)) :=
  (List.range (numblocksOf x).length).map
    (fun i => partitionAll ((alookup ml i).getD 1)
      (List.range ((numblocksOf x).getD i 0)))

/-- `out_chunks = [tuple(1 for p in partition_all(max_leaves[i], c)) if i in
max_leaves else c for (i, c) in enumerate(x.chunks)]` (lines 86-87). -/
def outChunksOf (x : CArray) (ml : List (Nat × Nat)) : List (List Nat) :=
  (List.range x.chunks.length).map
    (fun i => match alookup ml i with
      | some f => (partitionAll f (x.chunks.getD i [])).map (fun _ => 1)
      | Option.none => x.chunks.getD i [])

/-- `out_axis = [i for i in range(x.ndim) if i not in max_leaves]`
(line 89). -/
def outAxisOf (x : CArray) (ml : List (Nat × Nat)) : List Nat :=
  (List.range (numblocksOf x).length).filter (fun i => (alookup ml i).isNone)

/-- `toolz.get(out_axis, k)`: select the coordinates at the kept axes
(line 90). -/
def selectIdx (axes : List Nat) (k : List Nat) : List Nat :=
  axes.map (fun i => k.getD i 0)

/-- The output keys (line 85, optionally filtered through the getter at
line 91). -/
def outKeysOf (x : CArray) (ml : List (Nat × Nat)) (keepdims : Bool) :
    List (List Nat) :=
  let keys := cartesianProduct ((partsOf x ml).map (fun g => List.range g.length))
  if keepdims then keys else keys.map (selectIdx (outAxisOf x ml))

/-- The task for one group tuple `p`: all input keys `(x.name, q)` with `q`
in the cartesian product of the per-axis block groups (the flat content of
the `lol_tuples` nesting built at lines 95-97). -/
def taskOf (x : CArray) (p : List (List Nat)) : List GraphKey :=
  (cartesianProduct p).map (fun q => (x.name, q))

/-- The freshly created tasks `dsk` of `partial_reduce` (lines 93-98). -/
def newTasks (x : CArray) (ml : List (Nat × Nat)) (keepdims : Bool)
    (name : String) : List (GraphKey × List GraphKey) :=
  ((outKeysOf x ml keepdims).zip (cartesianProduct (partsOf x ml))).map
    (fun kp => ((name, kp.1), taskOf x kp.2))

/-- Model of `partial_reduce(func, x, max_leaves, keepdims, dtype, name)`:
returns `Array(merge(dsk, x.dask), name, out_chunks, …)` (line 99).
`toolz.merge(dsk, x.dask)` keeps every key of both dicts with `x.dask`
taking precedence, which the first-match association list
`x.dask ++ newTasks …` realises. -/
def partReduce (x : CArray) (ml : List (Nat × Nat)) (keepdims : Bool)
    (name : String) : CArray :=
  { name := name
    chunks := if keepdims then outChunksOf x ml
              else (outAxisOf x ml).map (fun i => (outChunksOf x ml).getD i [])
    dask := x.dask ++ newTasks x ml keepdims name }

/-! ### argmin/argmax records (`_arg_combine`, `arg_chunk`, lines 403-430) -/

/-- Sufficient-statistic record for `arg_*` reductions: extreme value,
local index, element count (the `('vals','arg','n')` structured dtype). -/
structure ArgRec where
  val : Int
  arg : Nat
  n : Nat
deriving DecidableEq

/-- First-occurrence extreme selection over a 1-D list: returns (index,
value).  With `cmp v x` meaning "`v` strictly beats `x`", this is
`np.argmax`/`np.argmin` (ties keep the earliest index) together with the
extreme value itself. -/
def argSel (cmp : Int → Int → Prop) [DecidableRel cmp] : List Int → Nat × Int
  | [] => (0, 0)
  | [x] => (0, x)
  | x :: y :: ys =>
    let p := argSel cmp (y :: ys)
    if cmp p.2 x then (p.1 + 1, p.2) else (0, x)

/-- Strict comparison used by `argmax` (`np.argmax` re-selection): a later
value wins only if strictly greater. -/
abbrev cmpMax (v x : Int) : Prop := x < v

/-- Strict comparison used by `argmin`. -/
abbrev cmpMin (v x : Int) : Prop := v < x

/-- Exclusive prefix sum, modelling
`offsets = np.roll(np.cumsum(ns, axis), 1, axis); offsets[0] = 0`
(lines 409-410). -/
def exclCumsum : List Nat → List Nat
  | [] => []
  | n :: ns => 0 :: (exclCumsum ns).map (fun s => n + s)

/-- `arg_chunk` (lines 420-430) on a 1-D block: extreme value by `func`,
local index by `argfunc`, and `n = x.shape[axis]`. -/
def argChunkRec (cmp : Int → Int → Prop) [DecidableRel cmp] (l : List Int) : ArgRec :=
  { val := (argSel cmp l).2, arg := (argSel cmp l).1, n := l.length }

/-- `_arg_combine` (lines 403-417) on a 1-D stack of records: re-select the
extreme among the blocks' extreme values, add the selected record's
exclusive-prefix-sum offset to its local index, and sum the counts. -/
def argCombine (cmp : Int → Int → Prop) [DecidableRel cmp] (recs : List ArgRec) : ArgRec :=
  let vals := recs.map ArgRec.val
  let j := (argSel cmp vals).1
  let offs := exclCumsum (recs.map ArgRec.n)
  { val := vals.getD j 0
    arg := (recs.map ArgRec.arg).getD j 0 + offs.getD j 0
    n := (recs.map ArgRec.n).sum }

/-! ### mean records (`mean_chunk`/`mean_agg`, lines 197-218) -/

/-- `mean_chunk` record on a 1-D block: `('total', 'n')`. -/
structure MeanRec where
  total : ℚ
  n : ℚ
deriving DecidableEq

/-- `mean_chunk` on a 1-D block (lines 197-204). -/
def meanChunkRec (l : List ℚ) : MeanRec :=
  { total := l.sum, n := (l.length : ℚ) }

/-- `mean_combine` (lines 207-213): sums counts and totals across the
group. -/
def meanCombine (recs : List MeanRec) : MeanRec :=
  { total := (recs.map MeanRec.total).sum, n := (recs.map MeanRec.n).sum }

/-- `mean_agg` (lines 216-218): accumulated total over accumulated count. -/
def meanAgg (recs : List MeanRec) : ℚ :=
  (recs.map MeanRec.total).sum / (recs.map MeanRec.n).sum

/-! ### central-moment records (`moment_*`, lines 249-314) -/

/-- `sum((x - c) ** k)` over a 1-D block. -/
def powSum (l : List ℚ) (c : ℚ) (k : Nat) : ℚ :=
  (l.map (fun x => (x - c) ^ k)).sum

/-- Mean of a 1-D block (`u = total / n`). -/
def listMean (l : List ℚ) : ℚ := l.sum / (l.length : ℚ)

/-- Moment sufficient-statistic record `('total', 'n', 'M')`; `M o` holds
`sum((A - u) ** o)`.  The source materializes `M` only for orders
`2 … order`; we carry the defining function. -/
structure MomentRec where
  total : ℚ
  n : ℚ
  M : Nat → ℚ

/-- `moment_chunk` (lines 249-262) on a 1-D block. -/
def momentChunkRec (l : List ℚ) : MomentRec :=
  { total := l.sum, n := (l.length : ℚ), M := fun o => powSum l (listMean l) o }

/-- `_moment_helper` (lines 265-270): merged order-`o` moment from the
groups' records.  `inner_term` is `totals/ns - mu`; the binomial coefficient
`factorial(order)/(factorial(k)*factorial(order-k))` is `Nat.choose o k`
(the float division is exact). -/
def momentHelperM (recs : List MomentRec) (mu : ℚ) (o : Nat) : ℚ :=
  (recs.map (fun r => r.M o)).sum
    + (recs.map (fun r => r.n * (r.total / r.n - mu) ^ o)).sum
    + ∑ k ∈ Finset.Ico 1 (o - 1),
        (Nat.choose o k : ℚ) *
          (recs.map (fun r => r.M (o - k) * (r.total / r.n - mu) ^ k)).sum

/-- `moment_combine` (lines 273-295): merged totals, counts, and moments
recentred against the merged mean `mu = total / n`. -/
def momentCombine (recs : List MomentRec) : MomentRec :=
  { total := (recs.map MomentRec.total).sum
    n := (recs.map MomentRec.n).sum
    M := fun o =>
      momentHelperM recs
        ((recs.map MomentRec.total).sum / (recs.map MomentRec.n).sum) o }

/-- `moment_agg` (lines 298-314): merged order-`order` moment divided by
`n - ddof`. -/
def momentAgg (recs : List MomentRec) (order : Nat) (ddof : ℚ) : ℚ :=
  let n := (recs.map MomentRec.n).sum
  let mu := (recs.map MomentRec.total).sum / n
  momentHelperM recs mu order / (n - ddof)

/-- A full sum reduction on a 1-D chunked list under the default fan-in
(fan-in = block count, depth 1): `chunk.sum` per block, then the aggregate
`chunk.sum` over the concatenated chunk results. -/
def sumReduce (bs : List (List ℚ)) : ℚ := (bs.map List.sum).sum

section PartitionAllLemmas

variable {α : Type}

theorem partitionAllAux_fuel_irrel (n : Nat) (hn : 1 ≤ n) :
    ∀ (fuel₁ fuel₂ : Nat) (l : List α), l.length ≤ fuel₁ → l.length ≤ fuel₂ →
      partitionAllAux n fuel₁ l = partitionAllAux n fuel₂ l := by
  intro fuel₁
  induction fuel₁ with
  | zero =>
    intro fuel₂ l h1 _
    have : l = [] := List.eq_nil_of_length_eq_zero (Nat.le_zero.mp h1)
    subst this
    cases fuel₂ <;> simp [partitionAllAux]
  | succ f ih =>
    intro fuel₂ l h1 h2
    cases l with
    | nil => cases fuel₂ <;> simp [partitionAllAux]
    | cons x xs =>
      cases fuel₂ with
      | zero => simp at h2
      | succ f2 =>
        simp only [partitionAllAux]
        congr 1
        apply ih
        · simpa using Nat.le_trans (Nat.sub_le_sub_right h1 n) (by omega)
        · simpa using Nat.le_trans (Nat.sub_le_sub_right h2 n) (by omega)

theorem partitionAll_nil (n : Nat) : partitionAll n ([] : List α) = [] := by
  cases n <;> simp [partitionAll, partitionAllAux]

theorem partitionAll_cons_eq (n : Nat) (hn : 1 ≤ n) (l : List α) (hl : l ≠ []) :
    partitionAll n l = l.take n :: partitionAll n (l.drop n) := by
  cases l with
  | nil => exact absurd rfl hl
  | cons x xs =>
    have hn0 : n ≠ 0 := by omega
    simp only [partitionAll, if_neg hn0]
    simp only [List.length_cons, partitionAllAux]
    congr 1
    apply partitionAllAux_fuel_irrel n hn
    · simp; omega
    · simp

theorem partitionAll_flatten (n : Nat) (hn : 1 ≤ n) (l : List α) :
    (partitionAll n l).flatten = l := by
  suffices h : ∀ (len : Nat) (l : List α), l.length ≤ len → (partitionAll n l).flatten = l from
    h l.length l le_rfl
  intro len
  induction len with
  | zero =>
    intro l hl
    have : l = [] := List.eq_nil_of_length_eq_zero (Nat.le_zero.mp hl)
    subst this
    simp [partitionAll_nil]
  | succ m ih =>
    intro l hl
    cases l with
    | nil => simp [partitionAll_nil]
    | cons x xs =>
      rw [partitionAll_cons_eq n hn _ (by simp)]
      rw [List.flatten_cons, ih _ (by simp at hl ⊢; omega), List.take_append_drop]

theorem partitionAll_mem_length_le (n : Nat) (hn : 1 ≤ n) (l : List α) :
    ∀ g ∈ partitionAll n l, g.length ≤ n ∧ g ≠ [] := by
  suffices h : ∀ (len : Nat) (l : List α), l.length ≤ len →
      ∀ g ∈ partitionAll n l, g.length ≤ n ∧ g ≠ [] from h l.length l le_rfl
  intro len
  induction len with
  | zero =>
    intro l hl
    have : l = [] := List.eq_nil_of_length_eq_zero (Nat.le_zero.mp hl)
    subst this
    simp [partitionAll_nil]
  | succ m ih =>
    intro l hl
    cases l with
    | nil => simp [partitionAll_nil]
    | cons x xs =>
      rw [partitionAll_cons_eq n hn _ (by simp)]
      intro g hg
      rcases List.mem_cons.mp hg with h | h
      · subst h
        refine ⟨by simp, ?_⟩
        have : (x :: xs).take n ≠ [] := by
          simp [List.take_eq_nil_iff]
          omega
        exact this
      · exact ih _ (by simp at hl ⊢; omega) g h

theorem partitionAll_nonlast_length (n : Nat) (hn : 1 ≤ n) (l : List α) :
    ∀ (j : Nat), j + 1 < (partitionAll n l).length →
      ((partitionAll n l).getD j []).length = n := by
  suffices h : ∀ (len : Nat) (l : List α), l.length ≤ len →
      ∀ (j : Nat), j + 1 < (partitionAll n l).length →
        ((partitionAll n l).getD j []).length = n from h l.length l le_rfl
  intro len
  induction len with
  | zero =>
    intro l hl j hj
    have : l = [] := List.eq_nil_of_length_eq_zero (Nat.le_zero.mp hl)
    subst this
    rw [partitionAll_nil] at hj
    simp at hj
  | succ m ih =>
    intro l hl j hj
    cases l with
    | nil => rw [partitionAll_nil] at hj; simp at hj
    | cons x xs =>
      rw [partitionAll_cons_eq n hn _ (by simp)] at hj ⊢
      cases j with
      | zero =>
        simp only [List.length_cons] at hj
        have hrest : partitionAll n ((x :: xs).drop n) ≠ [] := by
          intro hempty
          rw [hempty] at hj
          simp at hj
        have hdrop : (x :: xs).drop n ≠ [] := by
          intro hd
          rw [hd, partitionAll_nil] at hrest
          exact hrest rfl
        have hlen : n < (x :: xs).length := by
          by_contra hle
          exact hdrop (List.drop_eq_nil_of_le (by omega))
        rw [List.getD_cons_zero, List.length_take]
        simp only [List.length_cons] at hlen ⊢
        omega
      | succ j' =>
        simp only [List.getD_cons_succ]
        exact ih _ (by simp at hl ⊢; omega) j' (by simpa using hj)

theorem partitionAll_length_congr (n : Nat) (hn : 1 ≤ n) {β : Type}
    (l₁ : List α) (l₂ : List β) (hlen : l₁.length = l₂.length) :
    (partitionAll n l₁).length = (partitionAll n l₂).length := by
  suffices h : ∀ (len : Nat) (l₁ : List α) (l₂ : List β), l₁.length ≤ len →
      l₁.length = l₂.length →
      (partitionAll n l₁).length = (partitionAll n l₂).length from
    h l₁.length l₁ l₂ le_rfl hlen
  intro len
  induction len with
  | zero =>
    intro l₁ l₂ hl hl2
    have h1 : l₁ = [] := List.eq_nil_of_length_eq_zero (Nat.le_zero.mp hl)
    have h2 : l₂ = [] := List.eq_nil_of_length_eq_zero (by omega)
    subst h1; subst h2
    simp [partitionAll_nil]
  | succ m ih =>
    intro l₁ l₂ hl hl2
    cases l₁ with
    | nil =>
      have : l₂ = [] := List.eq_nil_of_length_eq_zero (by simpa using hl2.symm)
      subst this
      simp [partitionAll_nil]
    | cons x xs =>
      cases l₂ with
      | nil => simp at hl2
      | cons y ys =>
        rw [partitionAll_cons_eq n hn (x :: xs) (by simp),
          partitionAll_cons_eq n hn (y :: ys) (by simp)]
        simp only [List.length_cons]
        congr 1
        apply ih
        · simp at hl ⊢; omega
        · simp only [List.length_drop]
          simp at hl2 ⊢
          omega

theorem partitionAll_one (l : List α) :
    partitionAll 1 l = l.map (fun a => [a]) := by
  suffices h : ∀ (len : Nat) (l : List α), l.length ≤ len →
      partitionAll 1 l = l.map (fun a => [a]) from h l.length l le_rfl
  intro len
  induction len with
  | zero =>
    intro l hl
    have : l = [] := List.eq_nil_of_length_eq_zero (Nat.le_zero.mp hl)
    subst this
    simp [partitionAll_nil]
  | succ m ih =>
    intro l hl
    cases l with
    | nil => simp [partitionAll_nil]
    | cons x xs =>
      rw [partitionAll_cons_eq 1 (by omega) _ (by simp)]
      simp only [List.take_succ_cons, List.take_zero, List.drop_succ_cons, List.drop_zero,
        List.map_cons]
      congr 1
      exact ih xs (by simp at hl; omega)

theorem partitionAll_zero (l : List α) : partitionAll 0 l = [] := by
  simp [partitionAll]

end PartitionAllLemmas

section Helpers

variable {α β : Type}

theorem alookup_append_left [DecidableEq α] (l₁ l₂ : List (α × β)) (k : α) (v : β)
    (h : alookup l₁ k = some v) : alookup (l₁ ++ l₂) k = some v := by
  induction l₁ with
  | nil => simp [alookup] at h
  | cons p ps ih =>
    simp only [alookup, List.cons_append] at h ⊢
    by_cases hp : p.1 = k
    · simpa [hp] using h
    · rw [if_neg hp] at h ⊢
      exact ih h

theorem alookup_append_none [DecidableEq α] (l₁ l₂ : List (α × β)) (k : α)
    (h : alookup l₁ k = none) : alookup (l₁ ++ l₂) k = alookup l₂ k := by
  induction l₁ with
  | nil => simp
  | cons p ps ih =>
    simp only [alookup, List.cons_append] at h ⊢
    by_cases hp : p.1 = k
    · simp [hp] at h
    · rw [if_neg hp] at h ⊢
      exact ih h

theorem getD_map (f : α → β) (l : List α) (i : Nat) (d₁ : α) (d₂ : β)
    (hi : i < l.length) : (l.map f).getD i d₂ = f (l.getD i d₁) := by
  induction l generalizing i with
  | nil => simp at hi
  | cons x xs ih =>
    cases i with
    | zero => simp
    | succ j => simpa using ih j (by simpa using hi)

theorem getD_range_map (f : Nat → α) (m i : Nat) (d : α) (hi : i < m) :
    ((List.range m).map f).getD i d = f i := by
  rw [getD_map f _ i 0 d (by simpa using hi)]
  congr 1
  induction m generalizing i with
  | zero => omega
  | succ m ih =>
    rw [List.range_succ]
    rcases Nat.lt_or_ge i m with h | h
    · rw [List.getD_append _ _ _ _ (by simpa using h)]
      exact ih i h
    · have : i = m := by omega
      subst this
      rw [List.getD_append_right _ _ _ _ (by simp)]
      simp

theorem foldl_max_init_le (l : List Nat) (a : Nat) : a ≤ l.foldl max a := by
  induction l generalizing a with
  | nil => simp
  | cons x xs ih =>
    simp only [List.foldl_cons]
    exact le_trans (le_max_left a x) (ih _)

theorem foldl_max_le_of_mem (l : List Nat) (a x : Nat) (hx : x ∈ l) :
    x ≤ l.foldl max a := by
  induction l generalizing a with
  | nil => simp at hx
  | cons y ys ih =>
    simp only [List.foldl_cons]
    rcases List.mem_cons.mp hx with h | h
    · subst h
      exact le_trans (le_max_right a x) (foldl_max_init_le _ _)
    · exact ih _ h

theorem foldl_max_eq_init_or_mem (l : List Nat) (a : Nat) :
    l.foldl max a = a ∨ l.foldl max a ∈ l := by
  induction l generalizing a with
  | nil => left; rfl
  | cons x xs ih =>
    simp only [List.foldl_cons]
    rcases ih (max a x) with h | h
    · rcases Nat.le_total a x with hm | hm
      · right
        rw [h, max_eq_right hm]
        exact List.mem_cons_self _ _
      · left
        rw [h, max_eq_left hm]
    · right; exact List.mem_cons_of_mem _ h

theorem foldl_max_le (l : List Nat) (a b : Nat) (ha : a ≤ b)
    (h : ∀ x ∈ l, x ≤ b) : l.foldl max a ≤ b := by
  induction l generalizing a with
  | nil => simpa
  | cons x xs ih =>
    simp only [List.foldl_cons]
    exact ih _ (max_le ha (h x (List.mem_cons_self _ _)))
      (fun y hy => h y (List.mem_cons_of_mem _ hy))

theorem ceilLogAux_eq_clog (b : Nat) (hb : 2 ≤ b) :
    ∀ (fuel n : Nat), n ≤ fuel → ceilLogAux b fuel n = Nat.clog b n := by
  intro fuel
  induction fuel with
  | zero =>
    intro n hn
    have : n = 0 := by omega
    subst this
    simp [ceilLogAux]
  | succ f ih =>
    intro n hn
    by_cases h1 : 1 < n
    · have hstep : (n + b - 1) / b < n := Nat.add_pred_div_lt (by omega) h1
      simp only [ceilLogAux, if_pos h1]
      rw [ih _ (by omega), Nat.clog_of_two_le (by omega) h1]
    · simp only [ceilLogAux, if_neg h1]
      rw [Nat.clog_of_right_le_one (by omega)]

theorem ceilLog_eq_clog (b n : Nat) (hb : 2 ≤ b) : ceilLog b n = Nat.clog b n :=
  ceilLogAux_eq_clog b hb n n le_rfl

theorem floorRoot_spec (b m : Nat) (hm : 1 ≤ m) :
    (floorRoot b m) ^ m ≤ b ∧ b < (floorRoot b m + 1) ^ m := by
  constructor
  · rcases foldl_max_eq_init_or_mem
        ((List.range (b + 1)).filter (fun k => k ^ m ≤ b)) 0 with h | h
    · rw [floorRoot, h, Nat.zero_pow (by omega)]
      exact Nat.zero_le b
    · have := List.mem_filter.mp h
      simpa using this.2
  · by_contra hle
    push_neg at hle
    have hmem : (floorRoot b m + 1) ∈ (List.range (b + 1)).filter (fun k => k ^ m ≤ b) := by
      rw [List.mem_filter]
      constructor
      · rw [List.mem_range]
        have : floorRoot b m + 1 ≤ (floorRoot b m + 1) ^ m :=
          Nat.le_self_pow (by omega) _
        omega
      · simpa using hle
    have : floorRoot b m + 1 ≤ floorRoot b m := foldl_max_le_of_mem _ 0 _ hmem
    omega

theorem cartesianProduct_eq_nil_of_mem (ls : List (List α)) (h : [] ∈ ls) :
    cartesianProduct ls = [] := by
  induction ls with
  | nil => simp at h
  | cons l ls ih =>
    rcases List.mem_cons.mp h with h1 | h1
    · rw [← h1]
      simp [cartesianProduct]
    · simp [cartesianProduct, ih h1]

end Helpers

section DepthLemmas

theorem alookup_mem {α β : Type} [DecidableEq α] (l : List (α × β)) (k : α) (v : β)
    (h : alookup l k = some v) : (k, v) ∈ l := by
  induction l with
  | nil => simp [alookup] at h
  | cons p ps ih =>
    simp only [alookup] at h
    by_cases hp : p.1 = k
    · rw [if_pos hp] at h
      refine List.mem_cons.mpr (Or.inl ?_)
      obtain ⟨p1, p2⟩ := p
      simp_all
    · rw [if_neg hp] at h
      exact List.mem_cons_of_mem _ (ih h)

theorem getD_mem {α : Type} (l : List α) (i : Nat) (d : α) (hi : i < l.length) :
    l.getD i d ∈ l := by
  induction l generalizing i with
  | nil => simp at hi
  | cons x xs ih =>
    cases i with
    | zero => simp
    | succ j => exact List.mem_cons_of_mem _ (ih j (by simpa using hi))

theorem depthLoop_ok (ml : List (Nat × Nat)) (nb : List Nat) :
    ∀ (is : List Nat) (d : Nat),
      (∀ i ∈ is, ∀ f, alookup ml i = some f → f ≠ 0 ∧ (f = 1 ∨ nb.getD i 0 ≠ 0)) →
      depthLoop ml nb is d =
        Except.ok (is.foldl (fun acc i => max acc (depthContrib ml nb i)) d) := by
  intro is
  induction is with
  | nil => intro d _; rfl
  | cons i is ih =>
    intro d h
    have hi := h i (List.mem_cons_self _ _)
    simp only [depthLoop, List.foldl_cons, depthContrib]
    cases hf : alookup ml i with
    | none =>
      dsimp only
      rw [max_eq_left (Nat.zero_le d)]
      exact ih d (fun j hj => h j (List.mem_cons_of_mem _ hj))
    | some f =>
      obtain ⟨hf0, hf1⟩ := hi f hf
      dsimp only
      by_cases h1 : f = 1
      · rw [if_pos h1, if_pos h1, max_eq_left (Nat.zero_le d)]
        exact ih d (fun j hj => h j (List.mem_cons_of_mem _ hj))
      · rw [if_neg h1, if_neg hf0, if_neg h1, if_neg (hf1.resolve_left h1)]
        exact ih _ (fun j hj => h j (List.mem_cons_of_mem _ hj))

theorem computeDepth_ok (ml : List (Nat × Nat)) (nb : List Nat)
    (h : ∀ i, i < nb.length → ∀ f, alookup ml i = some f →
      f ≠ 0 ∧ (f = 1 ∨ nb.getD i 0 ≠ 0)) :
    computeDepth ml nb =
      Except.ok (((List.range nb.length).map (depthContrib ml nb)).foldl max 1) := by
  rw [computeDepth, depthLoop_ok ml nb _ 1
    (fun i hi => h i (List.mem_range.mp hi)), List.foldl_map]

theorem count_combine_stages (n : Nat) :
    (List.replicate n Stage.combine ++ [Stage.aggregate]).count Stage.combine = n := by
  induction n with
  | zero => rfl
  | succ m ih =>
    rw [List.replicate_succ, List.cons_append, List.count_cons]
    simp only [ih]
    have hbeq : (Stage.combine == Stage.combine) = true := rfl
    rw [hbeq]
    simp

end DepthLemmas

/-- **C1**: for every chunked input (block counts `nb`), reduced axis set and
resolved fan-in map `ml` (all fan-ins ≥ 1, all block counts ≥ 1), the planned
tree depth `d` computed at lines 51-54 of `reduction` is exactly the maximum
over reduced axes whose fan-in `f` is not 1 of `⌈log_f (blockcount)⌉`
(`ceilLog f n`, the least `k` with `n ≤ f ^ k`), floored at 1: planning
succeeds (axes with fan-in 1 are skipped, so they contribute nothing and do
not raise), every such axis's `ceilLog` is `≤ d` (equivalently `n ≤ f ^ d`),
`d` is attained (it is 1 or equals some axis's `ceilLog`), and the plan of
lines 57-61 applies the intermediate combine level exactly `d - 1` times
before the single final aggregation level. -/
theorem C1_tree_depth (ml : List (Nat × Nat)) (nb : List Nat)
    (hml : ∀ p ∈ ml, 1 ≤ p.2) (hnb : ∀ n ∈ nb, 1 ≤ n) :
    ∃ d, computeDepth ml nb = Except.ok d ∧
      1 ≤ d ∧
      (∀ i, i < nb.length → ∀ f, alookup ml i = some f → f ≠ 1 →
        ceilLog f (nb.getD i 0) ≤ d ∧ nb.getD i 0 ≤ f ^ d) ∧
      (d = 1 ∨ ∃ i, i < nb.length ∧ ∃ f, alookup ml i = some f ∧ f ≠ 1 ∧
        d = ceilLog f (nb.getD i 0)) ∧
      reductionStages ml nb =
        Except.ok (List.replicate (d - 1) Stage.combine ++ [Stage.aggregate]) ∧
      (List.replicate (d - 1) Stage.combine ++ [Stage.aggregate]).count
        Stage.combine = d - 1 := by
  have herr : ∀ i, i < nb.length → ∀ f, alookup ml i = some f →
      f ≠ 0 ∧ (f = 1 ∨ nb.getD i 0 ≠ 0) := by
    intro i hi f hf
    have h1 : 1 ≤ f := hml _ (alookup_mem ml i f hf)
    have h2 : 1 ≤ nb.getD i 0 := hnb _ (getD_mem nb i 0 hi)
    omega
  set d := ((List.range nb.length).map (depthContrib ml nb)).foldl max 1 with hd
  have hok := computeDepth_ok ml nb herr
  have hd1 : 1 ≤ d := foldl_max_init_le _ _
  refine ⟨d, hok, hd1, ?_, ?_, ?_, count_combine_stages _⟩
  · intro i hi f hf hf1
    have hcontrib : depthContrib ml nb i = ceilLog f (nb.getD i 0) := by
      simp [depthContrib, hf, hf1]
    have hmem : ceilLog f (nb.getD i 0) ∈ (List.range nb.length).map (depthContrib ml nb) := by
      rw [← hcontrib]
      exact List.mem_map_of_mem _ (List.mem_range.mpr hi)
    have hle : ceilLog f (nb.getD i 0) ≤ d := foldl_max_le_of_mem _ _ _ hmem
    refine ⟨hle, ?_⟩
    have hf2 : 2 ≤ f := by
      have := hml _ (alookup_mem ml i f hf)
      omega
    calc nb.getD i 0 ≤ f ^ Nat.clog f (nb.getD i 0) := Nat.le_pow_clog (by omega) _
      _ = f ^ ceilLog f (nb.getD i 0) := by rw [ceilLog_eq_clog _ _ hf2]
      _ ≤ f ^ d := Nat.pow_le_pow_right (by omega) hle
  · rcases foldl_max_eq_init_or_mem ((List.range nb.length).map (depthContrib ml nb)) 1
      with h | h
    · left; exact h
    · rw [← hd] at h
      obtain ⟨i, hi, hci⟩ := List.mem_map.mp h
      have hi' : i < nb.length := List.mem_range.mp hi
      cases hfl : alookup ml i with
      | none =>
        rw [depthContrib, hfl] at hci
        dsimp only at hci
        omega
      | some f =>
        by_cases h1 : f = 1
        · rw [depthContrib, hfl] at hci
          dsimp only at hci
          rw [if_pos h1] at hci
          omega
        · right
          refine ⟨i, hi', f, hfl, h1, ?_⟩
          rw [depthContrib, hfl] at hci
          dsimp only at hci
          rw [if_neg h1] at hci
          omega
  · rw [reductionStages, hok]
    rfl

/-- Witness for C1 at `ml = [(0, 2), (1, 1)]`, `nb = [4, 3]`: fan-in 2 on
axis 0 (4 blocks) and fan-in 1 on axis 1 give depth `⌈log₂ 4⌉ = 2` with no
error, hence one combine level before the aggregation level. -/
theorem C1_tree_depth_witness :
    (∀ p ∈ [((0:Nat), (2:Nat)), (1, 1)], 1 ≤ p.2) ∧ (∀ n ∈ [4, 3], 1 ≤ n) ∧
    ∃ d, computeDepth [(0, 2), (1, 1)] [4, 3] = Except.ok d ∧
      1 ≤ d ∧
      (∀ i, i < [4, 3].length → ∀ f, alookup [(0, 2), (1, 1)] i = some f → f ≠ 1 →
        ceilLog f ([4, 3].getD i 0) ≤ d ∧ [4, 3].getD i 0 ≤ f ^ d) ∧
      (d = 1 ∨ ∃ i, i < [4, 3].length ∧ ∃ f, alookup [(0, 2), (1, 1)] i = some f ∧ f ≠ 1 ∧
        d = ceilLog f ([4, 3].getD i 0)) ∧
      reductionStages [(0, 2), (1, 1)] [4, 3] =
        Except.ok (List.replicate (d - 1) Stage.combine ++ [Stage.aggregate]) ∧
      (List.replicate (d - 1) Stage.combine ++ [Stage.aggregate]).count
        Stage.combine = d - 1 :=
  ⟨by decide, by decide, C1_tree_depth _ _ (by decide) (by decide)⟩

section FaninLemmas

theorem alookup_map_self {β : Type} (axes : List Nat) (v : Nat → β) (k : Nat)
    (hk : k ∈ axes) : alookup (axes.map (fun a => (a, v a))) k = some (v k) := by
  induction axes with
  | nil => simp at hk
  | cons a as ih =>
    simp only [List.map_cons, alookup]
    by_cases h : a = k
    · subst h
      simp
    · rw [if_neg h]
      refine ih ?_
      rcases List.mem_cons.mp hk with h1 | h1
      · exact absurd h1.symm h
      · exact h1

theorem alookup_range_filterMap {β : Type} (m : Nat) (P : Nat → Prop)
    [DecidablePred P] (v : Nat → β) (k : Nat) :
    alookup ((List.range m).filterMap
        (fun i => if P i then some (i, v i) else none)) k =
      if k < m ∧ P k then some (v k) else none := by
  induction m with
  | zero => simp [alookup]
  | succ m ih =>
    rw [List.range_succ, List.filterMap_append]
    by_cases hk : k < m ∧ P k
    · rw [if_pos ⟨by omega, hk.2⟩]
      exact alookup_append_left _ _ _ _ (by rw [ih, if_pos hk])
    · rw [alookup_append_none _ _ _ (by rw [ih, if_neg hk])]
      by_cases hm : P m
      · simp only [List.filterMap_cons, List.filterMap_nil, if_pos hm]
        by_cases hkm : m = k
        · subst hkm
          simp [alookup, hm]
        · have hnot : ¬(k < m + 1 ∧ P k) := by
            rintro ⟨h1, h2⟩
            have h3 : k < m ∨ k = m := by omega
            rcases h3 with h3 | h3
            · exact hk ⟨h3, h2⟩
            · exact hkm h3.symm
          simp only [alookup, if_neg hkm, if_neg hnot]
      · simp only [List.filterMap_cons, List.filterMap_nil, if_neg hm]
        have hnot : ¬(k < m + 1 ∧ P k) := by
          rintro ⟨h1, h2⟩
          have h3 : k < m ∨ k = m := by omega
          rcases h3 with h3 | h3
          · exact hk ⟨h3, h2⟩
          · subst h3
            exact hm h2
        simp only [alookup, if_neg hnot]

theorem ceilLog_self_eq_one (n : Nat) (hn : 2 ≤ n) : ceilLog n n = 1 := by
  rw [ceilLog_eq_clog _ _ hn]
  exact Nat.clog_eq_one hn le_rfl

end FaninLemmas

/-- **C2**: fan-in resolution (lines 36-42 of `reduction`).  For any reduced
axis `k`: with an explicit per-axis dict `d` the resolved fan-in is the
mapped value with default 2; with a scalar budget `b` it is
`max(2, floor(b^(1/|axes|)))` (the witness `r` below is the exact integer
root: `r ^ |axes| ≤ b < (r+1) ^ |axes|`); with nothing supplied it is the
axis's current block count, and then the depth of lines 51-54 is exactly 1,
so the reduction collapses in a single level. -/
theorem C2_fanin_resolution (axes nb : List Nat) (d : List (Nat × Nat)) (b k : Nat)
    (hk : k ∈ axes) (hax : axes ≠ [])
    (hnb : ∀ i ∈ axes, i < nb.length → 1 ≤ nb.getD i 0) :
    alookup (resolveFanin (FaninSpec.perAxis d) axes nb) k =
      some ((alookup d k).getD 2) ∧
    (∃ r, alookup (resolveFanin (FaninSpec.budget b) axes nb) k =
        some (max r 2) ∧ r ^ axes.length ≤ b ∧ b < (r + 1) ^ axes.length) ∧
    (k < nb.length →
      alookup (resolveFanin FaninSpec.unspecified axes nb) k =
        some (nb.getD k 0)) ∧
    computeDepth (resolveFanin FaninSpec.unspecified axes nb) nb =
      Except.ok 1 := by
  have hmaplem : ∀ k0, alookup (resolveFanin FaninSpec.unspecified axes nb) k0 =
      if k0 < nb.length ∧ k0 ∈ axes then some (nb.getD k0 0) else none := by
    intro k0
    exact alookup_range_filterMap nb.length (fun i => i ∈ axes) _ k0
  refine ⟨?_, ?_, ?_, ?_⟩
  · exact alookup_map_self axes (fun a => (alookup d a).getD 2) k hk
  · refine ⟨floorRoot b axes.length, ?_, ?_, ?_⟩
    · exact alookup_map_self axes (fun _ => max (floorRoot b axes.length) 2) k hk
    · exact (floorRoot_spec b axes.length
        (List.length_pos.mpr hax)).1
    · exact (floorRoot_spec b axes.length
        (List.length_pos.mpr hax)).2
  · intro hklen
    rw [hmaplem, if_pos ⟨hklen, hk⟩]
  · have herr : ∀ i, i < nb.length → ∀ f,
        alookup (resolveFanin FaninSpec.unspecified axes nb) i = some f →
        f ≠ 0 ∧ (f = 1 ∨ nb.getD i 0 ≠ 0) := by
      intro i hi f hf
      rw [hmaplem] at hf
      by_cases hc : i < nb.length ∧ i ∈ axes
      · rw [if_pos hc] at hf
        have h1 : 1 ≤ nb.getD i 0 := hnb i hc.2 hi
        have : f = nb.getD i 0 := by injection hf; omega
        omega
      · rw [if_neg hc] at hf
        exact absurd hf (by simp)
    rw [computeDepth_ok _ _ herr]
    congr 1
    have hle : ((List.range nb.length).map
        (depthContrib (resolveFanin FaninSpec.unspecified axes nb) nb)).foldl max 1 ≤ 1 := by
      apply foldl_max_le _ 1 1 le_rfl
      intro x hx
      obtain ⟨i, hi, hxi⟩ := List.mem_map.mp hx
      have hi' : i < nb.length := List.mem_range.mp hi
      rw [depthContrib, hmaplem] at hxi
      by_cases hc : i < nb.length ∧ i ∈ axes
      · rw [if_pos hc] at hxi
        dsimp only at hxi
        by_cases h1 : nb.getD i 0 = 1
        · rw [if_pos h1] at hxi
          omega
        · rw [if_neg h1] at hxi
          have h2 : 2 ≤ nb.getD i 0 := by
            have := hnb i hc.2 hi'
            omega
          rw [ceilLog_self_eq_one _ h2] at hxi
          omega
      · rw [if_neg hc] at hxi
        dsimp only at hxi
        omega
    have hge := foldl_max_init_le ((List.range nb.length).map
        (depthContrib (resolveFanin FaninSpec.unspecified axes nb) nb)) 1
    omega

/-- Witness for C2 at `axes = [0, 1]`, `nb = [3, 4]`, dict `[(0, 5)]`,
budget `10`: dict gives axis 0 fan-in 5 and axis 1 the default 2; budget 10
gives `max(2, floor(sqrt 10)) = 3`; unspecified gives axis 0 fan-in 3 (its
block count) and depth 1. -/
theorem C2_fanin_resolution_witness :
    ((0:Nat) ∈ [0, 1] ∧ ([0, 1] : List Nat) ≠ [] ∧
      (∀ i ∈ [0, 1], i < [3, 4].length → 1 ≤ [3, 4].getD i 0)) ∧
    (alookup (resolveFanin (FaninSpec.perAxis [(0, 5)]) [0, 1] [3, 4]) 0 =
      some ((alookup [(0, 5)] 0).getD 2) ∧
    (∃ r, alookup (resolveFanin (FaninSpec.budget 10) [0, 1] [3, 4]) 0 =
        some (max r 2) ∧ r ^ [0, 1].length ≤ 10 ∧ 10 < (r + 1) ^ [0, 1].length) ∧
    (0 < [3, 4].length →
      alookup (resolveFanin FaninSpec.unspecified [0, 1] [3, 4]) 0 =
        some ([3, 4].getD 0 0)) ∧
    computeDepth (resolveFanin FaninSpec.unspecified [0, 1] [3, 4]) [3, 4] =
      Except.ok 1) :=
  ⟨⟨by decide, by decide, by decide⟩,
    C2_fanin_resolution [0, 1] [3, 4] [(0, 5)] 10 0 (by decide) (by decide) (by decide)⟩

/-- **C3 counterexample**: the claim asserts that out-of-range or duplicate
axes fail with `InvalidAxis` at planning time and that negative axes are
reduced modulo the rank.  The axis-normalization code (line 28 of
`reduction`) is total: with rank 2, the out-of-range axis `5` and the
duplicated axis `0` pass through unchanged with no error, and the
doubly-negative axis `-5` becomes `2 + (-5) = -3`, which differs from
`(-5) mod 2 = 1`. -/
theorem C3_counterexample :
    normalizeAxes 2 [5, 0, 0, -5] = [5, 0, 0, -3] ∧ (-5 : Int) % 2 = 1 := by
  constructor
  · rfl
  · decide

/-- **C3 (amended)**: the planner maps each requested axis `i` to
`i if i ≥ 0 else rank + i` (line 28).  For in-range axes
(`-rank ≤ i < rank`) this agrees with `i mod rank` and lands in
`[0, rank)`; but no validation is performed: normalization is total (one
output per input axis), and an out-of-range nonnegative axis passes through
unchanged — no `InvalidAxis` error exists in the code. -/
theorem C3_axis_normalization (ndim : Int) (axes : List Int) :
    (normalizeAxes ndim axes).length = axes.length ∧
    (∀ i ∈ axes, -ndim ≤ i → i < ndim →
      normalizeAxis ndim i = i % ndim ∧
      0 ≤ normalizeAxis ndim i ∧ normalizeAxis ndim i < ndim) ∧
    (∀ i ∈ axes, ndim ≤ i → 0 ≤ i → normalizeAxis ndim i = i) := by
  refine ⟨by simp [normalizeAxes], ?_, ?_⟩
  · intro i _ h1 h2
    by_cases h0 : 0 ≤ i
    · rw [normalizeAxis, if_pos h0]
      exact ⟨(Int.emod_eq_of_lt h0 h2).symm, h0, h2⟩
    · rw [normalizeAxis, if_neg h0]
      push_neg at h0
      have hb1 : 0 ≤ ndim + i := by omega
      have hb2 : ndim + i < ndim := by omega
      refine ⟨?_, hb1, hb2⟩
      have e1 : ndim + i = i + ndim * 1 := by ring
      have e2 : (i + ndim * 1) % ndim = i % ndim := Int.add_mul_emod_self_left i ndim 1
      calc ndim + i = (ndim + i) % ndim := (Int.emod_eq_of_lt hb1 hb2).symm
        _ = (i + ndim * 1) % ndim := by rw [← e1]
        _ = i % ndim := e2
  · intro i _ _ h0
    rw [normalizeAxis, if_pos h0]

/-- Witness for the amended C3 at rank 3: `-2` normalizes to `1 = -2 mod 3`
and the in-range axis `1` is unchanged. -/
theorem C3_axis_normalization_witness :
    (normalizeAxes 3 [-2, 1]).length = ([-2, 1] : List Int).length ∧
    (normalizeAxis 3 (-2) = (-2) % 3 ∧ 0 ≤ normalizeAxis 3 (-2) ∧
      normalizeAxis 3 (-2) < 3) :=
  ⟨(C3_axis_normalization 3 [-2, 1]).1,
    (C3_axis_normalization 3 [-2, 1]).2.1 (-2) (by decide) (by decide) (by decide)⟩

/-- **C4 counterexample**: the claim asserts that a fan-in `< 1` is detected
at planning time with an immediate descriptive error rather than silently
building a graph.  `partial_reduce` performs no such check: with fan-in 0 on
axis 0, `partition_all(0, …)` yields zero groups, and a result is built
silently — empty output chunks, no new tasks, no error. -/
theorem C4_counterexample :
    partReduce ({ name := "x"
                  chunks := [[7, 7, 7]]
                  dask := [(("x", [0]), [])] }) [(0, 0)] true "r" =
      { name := "r", chunks := [[]], dask := [(("x", [0]), [])] } := by
  rfl

/-- **C4 (amended)**: `partial_reduce` does not validate fan-in values.
With fan-in 0 supplied for any in-range axis, `partition_all(0, range(n))`
produces zero groups, so the cartesian product of group choices is empty:
no new tasks are created and the returned graph is exactly the input graph —
the invalid fan-in is silently accepted, not detected.  (Only `reduction`'s
depth loop would incidentally raise — a bare `math.log` domain error, not a
planned validation.) -/
theorem C4_fanin_not_validated (x : CArray) (ml : List (Nat × Nat))
    (kd : Bool) (nm : String) (i : Nat)
    (hi : i < (numblocksOf x).length) (h0 : alookup ml i = some 0) :
    newTasks x ml kd nm = [] ∧ (partReduce x ml kd nm).dask = x.dask := by
  have hmem : ([] : List (List Nat)) ∈ partsOf x ml := by
    have : partitionAll ((alookup ml i).getD 1)
        (List.range ((numblocksOf x).getD i 0)) ∈ partsOf x ml :=
      List.mem_map_of_mem _ (List.mem_range.mpr hi)
    rwa [h0, Option.getD_some, partitionAll_zero] at this
  have hprod : cartesianProduct (partsOf x ml) = [] :=
    cartesianProduct_eq_nil_of_mem _ hmem
  have htasks : newTasks x ml kd nm = [] := by
    rw [newTasks, hprod, List.zip_nil_right]
    rfl
  refine ⟨htasks, ?_⟩
  show x.dask ++ newTasks x ml kd nm = x.dask
  rw [htasks, List.append_nil]

/-- Witness for the amended C4: a 3-block 1-D array with fan-in 0 on axis 0
gets no new tasks and an unchanged graph. -/
theorem C4_fanin_not_validated_witness :
    newTasks ({ name := "x", chunks := [[7, 7, 7]], dask := [(("x", [0]), [])] })
        [(0, 0)] false "r" = [] ∧
    (partReduce ({ name := "x", chunks := [[7, 7, 7]], dask := [(("x", [0]), [])] })
        [(0, 0)] false "r").dask =
      [(("x", [0]), [])] :=
  C4_fanin_not_validated _ [(0, 0)] false "r" 0 (by decide) (by decide)

/-- **C6**: `partial_reduce` returns
`Array(merge(dsk, x.dask), …)` (line 99): the output graph is the union of
the new tasks with the whole input graph, so every key (and its task) of the
input graph is still present in the output graph — no ancestor task is
pruned. -/
theorem C6_graph_union (x : CArray) (ml : List (Nat × Nat)) (kd : Bool)
    (nm : String) (k : GraphKey) (v : List GraphKey)
    (h : alookup x.dask k = some v) :
    alookup (partReduce x ml kd nm).dask k = some v := by
  show alookup (x.dask ++ newTasks x ml kd nm) k = some v
  exact alookup_append_left _ _ _ _ h

/-- Witness for C6: the input key `("x", [0, 1])` and its task survive a
partial reduce over axis 0 with fan-in 2. -/
theorem C6_graph_union_witness :
    alookup [(("x", [0, 1]), [("y", [0])])] (("x", [0, 1]) : GraphKey) =
      some [(("y", [0]) : GraphKey)] ∧
    alookup (partReduce ({ name := "x"
                           chunks := [[1, 1], [2]]
                           dask := [(("x", [0, 1]), [("y", [0])])] }) [(0, 2)] false "r").dask
      (("x", [0, 1]) : GraphKey) = some [(("y", [0]) : GraphKey)] :=
  ⟨by decide, C6_graph_union _ [(0, 2)] false "r" _ _ (by decide)⟩

/-- **C9 counterexample**: the claim states variance(ddof=0) ≈ 6.359375
(= 407/64 exactly) for `[3,1,4,1,5,9,2,6]` split `[3,3,2]`.  Evaluating the
moment chunk/aggregate chain (exact rational arithmetic) gives
`423/64 = 6.609375`: mean `31/8`, `Σ(x - 31/8)² = 423/8`, divided by 8.
The spec's stated value `6.359375` is an arithmetic slip. -/
theorem C9_counterexample :
    momentAgg ([[(3:ℚ), 1, 4], [1, 5, 9], [2, 6]].map momentChunkRec) 2 0 =
      423 / 64 ∧ (423 / 64 : ℚ) ≠ 407 / 64 := by
  constructor
  · simp [momentAgg, momentHelperM, momentChunkRec, powSum, listMean]
    norm_num
  · norm_num

/-- **C9 (amended)**: for `[3,1,4,1,5,9,2,6]` in blocks `[3,3,2]` the
planned reductions evaluate to sum = 31, argmax index = 5 (value 9),
mean = 31/8 = 3.875, and variance(ddof=0) = 423/64 = 6.609375 (not
6.359375 as claimed). -/
theorem C9_scenario :
    sumReduce [[(3:ℚ), 1, 4], [1, 5, 9], [2, 6]] = 31 ∧
    (argCombine cmpMax ([[3, 1, 4], [1, 5, 9], [2, 6]].map (argChunkRec cmpMax))).arg = 5 ∧
    (argCombine cmpMax ([[3, 1, 4], [1, 5, 9], [2, 6]].map (argChunkRec cmpMax))).val = 9 ∧
    meanAgg ([[(3:ℚ), 1, 4], [1, 5, 9], [2, 6]].map meanChunkRec) = 31 / 8 ∧
    momentAgg ([[(3:ℚ), 1, 4], [1, 5, 9], [2, 6]].map momentChunkRec) 2 0 = 423 / 64 := by
  refine ⟨?_, by decide, by decide, ?_, ?_⟩
  · simp [sumReduce]
    norm_num
  · simp [meanAgg, meanChunkRec]
    norm_num
  · simp [momentAgg, momentHelperM, momentChunkRec, powSum, listMean]
    norm_num

/-- **C10**: the `arg_reduction` wrapper (lines 456-458) normalizes the axis
with the bare comparison `axis < 0`.  Under Python 3, comparing `None` or a
tuple with `0` raises `TypeError`, so the call succeeds exactly when a plain
integer axis is supplied: argmin/argmax cannot reduce over all axes (the
`None` default) or an axis tuple, unlike the other statistics whose
normalization (`reductionAxes`) accepts all three forms. -/
theorem C10_arg_axis_int_only (ndim : Int) (a : PyAxis) :
    (∃ i, a = PyAxis.int i) ↔ ∃ v, argAxisNormalize ndim a = Except.ok v := by
  cases a with
  | none => simp [argAxisNormalize]
  | int i => simp [argAxisNormalize]
  | tuple l => simp [argAxisNormalize]

/-- **C5**: in every `partial_reduce` level (all fan-ins ≥ 1), each axis `i`
present in the fan-in map with fan-in `f` has its block-index range
partitioned into contiguous lowest-index-first groups (their concatenation
is `range n` in order), each group of size ≤ `f` and nonempty, all but the
last of size exactly `f`; the output chunks on that axis are one chunk of
size 1 per group.  Axes absent from the map keep singleton groups and their
chunk sizes unchanged.  And the axes removed from the output coordinate
space when dimensions are dropped (`out_axis` complement) are exactly the
axes present in the fan-in map. -/
theorem C5_partial_reduce_grouping (x : CArray) (ml : List (Nat × Nat))
    (hml : ∀ p ∈ ml, 1 ≤ p.2) :
    (∀ i f, i < (numblocksOf x).length → alookup ml i = some f →
      ((partsOf x ml).getD i []).flatten =
        List.range ((numblocksOf x).getD i 0) ∧
      (∀ g ∈ (partsOf x ml).getD i [], g.length ≤ f ∧ g ≠ []) ∧
      (∀ j, j + 1 < ((partsOf x ml).getD i []).length →
        (((partsOf x ml).getD i []).getD j []).length = f) ∧
      ((outChunksOf x ml).getD i []).length =
        ((partsOf x ml).getD i []).length ∧
      (∀ c ∈ (outChunksOf x ml).getD i [], c = 1)) ∧
    (∀ i, i < (numblocksOf x).length → alookup ml i = none →
      (partsOf x ml).getD i [] =
        (List.range ((numblocksOf x).getD i 0)).map (fun j => [j]) ∧
      (outChunksOf x ml).getD i [] = x.chunks.getD i []) ∧
    (∀ i, i ∈ outAxisOf x ml ↔
      i < (numblocksOf x).length ∧ alookup ml i = none) := by
  have hLc : (numblocksOf x).length = x.chunks.length := by
    simp [numblocksOf]
  have hparts : ∀ i, i < (numblocksOf x).length →
      (partsOf x ml).getD i [] =
        partitionAll ((alookup ml i).getD 1)
          (List.range ((numblocksOf x).getD i 0)) := by
    intro i hi
    exact getD_range_map _ _ i _ hi
  have houtc : ∀ i, i < (numblocksOf x).length →
      (outChunksOf x ml).getD i [] =
        (match alookup ml i with
          | some f => (partitionAll f (x.chunks.getD i [])).map (fun _ => 1)
          | Option.none => x.chunks.getD i []) := by
    intro i hi
    exact getD_range_map _ _ i _ (by omega)
  have hnb : ∀ i, i < (numblocksOf x).length →
      (numblocksOf x).getD i 0 = (x.chunks.getD i []).length := by
    intro i hi
    exact getD_map List.length x.chunks i [] 0 (by omega)
  refine ⟨?_, ?_, ?_⟩
  · intro i f hi hf
    have hf1 : 1 ≤ f := hml _ (alookup_mem ml i f hf)
    have hp := hparts i hi
    rw [hf, Option.getD_some] at hp
    have hoc := houtc i hi
    rw [hf] at hoc
    dsimp only at hoc
    refine ⟨?_, ?_, ?_, ?_, ?_⟩
    · rw [hp]
      exact partitionAll_flatten f hf1 _
    · rw [hp]
      exact partitionAll_mem_length_le f hf1 _
    · rw [hp]
      exact partitionAll_nonlast_length f hf1 _
    · rw [hp, hoc, List.length_map]
      apply partitionAll_length_congr f hf1
      rw [hnb i hi]
      simp
    · rw [hoc]
      intro c hc
      obtain ⟨g, _, hg⟩ := List.mem_map.mp hc
      exact hg.symm
  · intro i hi hnone
    have hp := hparts i hi
    rw [hnone, Option.getD_none] at hp
    have hoc := houtc i hi
    rw [hnone] at hoc
    dsimp only at hoc
    exact ⟨by rw [hp]; exact partitionAll_one _, hoc⟩
  · intro i
    simp [outAxisOf, List.mem_filter, List.mem_range, Option.isNone_iff_eq_none]

/-- Witness for C5: a 2-axis array with 3 and 2 blocks, fan-in 2 on axis 0
only: axis 0 gets groups `[[0,1],[2]]` with chunks `[1,1]`; axis 1 keeps
singleton groups and its chunks; dropped axes = `{0}`. -/
theorem C5_partial_reduce_grouping_witness :
    (∀ p ∈ [((0:Nat), (2:Nat))], 1 ≤ p.2) ∧
    ((∀ i f, i < (numblocksOf ({ name := "x", chunks := [[5, 5, 5], [7, 7]], dask := [] })).length →
      alookup [(0, 2)] i = some f →
      ((partsOf ({ name := "x", chunks := [[5, 5, 5], [7, 7]], dask := [] }) [(0, 2)]).getD i []).flatten =
        List.range ((numblocksOf ({ name := "x", chunks := [[5, 5, 5], [7, 7]], dask := [] })).getD i 0) ∧
      (∀ g ∈ (partsOf ({ name := "x", chunks := [[5, 5, 5], [7, 7]], dask := [] }) [(0, 2)]).getD i [],
        g.length ≤ f ∧ g ≠ []) ∧
      (∀ j, j + 1 < ((partsOf ({ name := "x", chunks := [[5, 5, 5], [7, 7]], dask := [] }) [(0, 2)]).getD i []).length →
        (((partsOf ({ name := "x", chunks := [[5, 5, 5], [7, 7]], dask := [] }) [(0, 2)]).getD i []).getD j []).length = f) ∧
      ((outChunksOf ({ name := "x", chunks := [[5, 5, 5], [7, 7]], dask := [] }) [(0, 2)]).getD i []).length =
        ((partsOf ({ name := "x", chunks := [[5, 5, 5], [7, 7]], dask := [] }) [(0, 2)]).getD i []).length ∧
      (∀ c ∈ (outChunksOf ({ name := "x", chunks := [[5, 5, 5], [7, 7]], dask := [] }) [(0, 2)]).getD i [], c = 1)) ∧
    (∀ i, i < (numblocksOf ({ name := "x", chunks := [[5, 5, 5], [7, 7]], dask := [] })).length →
      alookup [(0, 2)] i = none →
      (partsOf ({ name := "x", chunks := [[5, 5, 5], [7, 7]], dask := [] }) [(0, 2)]).getD i [] =
        (List.range ((numblocksOf ({ name := "x", chunks := [[5, 5, 5], [7, 7]], dask := [] })).getD i 0)).map (fun j => [j]) ∧
      (outChunksOf ({ name := "x", chunks := [[5, 5, 5], [7, 7]], dask := [] }) [(0, 2)]).getD i [] =
        ({ name := "x", chunks := [[5, 5, 5], [7, 7]], dask := [] } : CArray).chunks.getD i []) ∧
    (∀ i, i ∈ outAxisOf ({ name := "x", chunks := [[5, 5, 5], [7, 7]], dask := [] }) [(0, 2)] ↔
      i < (numblocksOf ({ name := "x", chunks := [[5, 5, 5], [7, 7]], dask := [] })).length ∧
      alookup [(0, 2)] i = none)) :=
  ⟨by decide, C5_partial_reduce_grouping
    ({ name := "x", chunks := [[5, 5, 5], [7, 7]], dask := [] }) [(0, 2)] (by decide)⟩

section ArgSelLemmas

variable {cmp : Int → Int → Prop} [DecidableRel cmp]

theorem argSel_cons_cons (x y : Int) (ys : List Int) :
    argSel cmp (x :: y :: ys) =
      if cmp (argSel cmp (y :: ys)).2 x
      then ((argSel cmp (y :: ys)).1 + 1, (argSel cmp (y :: ys)).2)
      else (0, x) := by
  rw [argSel]

theorem argSel_getD : ∀ (l : List Int), l ≠ [] →
    l.getD (argSel cmp l).1 0 = (argSel cmp l).2 ∧
      (argSel cmp l).1 < l.length := by
  intro l
  induction l with
  | nil => intro h; exact absurd rfl h
  | cons x xs ih =>
    intro _
    cases xs with
    | nil => simp [argSel]
    | cons y ys =>
      obtain ⟨h1, h2⟩ := ih (by simp)
      rw [argSel_cons_cons]
      by_cases hc : cmp (argSel cmp (y :: ys)).2 x
      · rw [if_pos hc]
        refine ⟨by simpa using h1, ?_⟩
        simp only [List.length_cons]
        simp only [List.length_cons] at h2
        omega
      · rw [if_neg hc]
        simp

theorem exclCumsum_length (ns : List Nat) : (exclCumsum ns).length = ns.length := by
  induction ns with
  | nil => rfl
  | cons n ns ih => simp [exclCumsum, ih]

end ArgSelLemmas

section ArgSelAppend

variable {cmp : Int → Int → Prop} [DecidableRel cmp]

theorem argSel_append
    (hT : ∀ a b c, cmp a b → cmp b c → cmp a c)
    (hN : ∀ a b c, ¬cmp a b → ¬cmp b c → ¬cmp a c) :
    ∀ (a b : List Int), a ≠ [] → b ≠ [] →
      argSel cmp (a ++ b) =
        if cmp (argSel cmp b).2 (argSel cmp a).2
        then (a.length + (argSel cmp b).1, (argSel cmp b).2)
        else argSel cmp a := by
  intro a
  induction a with
  | nil => intro b h; exact absurd rfl h
  | cons x xs ih =>
    intro b _ hb
    cases xs with
    | nil =>
      cases b with
      | nil => exact absurd rfl hb
      | cons y ys =>
        rw [List.cons_append, List.nil_append, argSel_cons_cons]
        have hax : (argSel cmp [x]).2 = x := rfl
        by_cases hc : cmp (argSel cmp (y :: ys)).2 x
        · rw [if_pos hc, if_pos (by rw [hax]; exact hc)]
          refine Prod.ext ?_ rfl
          simp only [List.length_cons, List.length_nil]
          omega
        · rw [if_neg hc, if_neg (by rw [hax]; exact hc)]
          rfl
    | cons z zs =>
      have hzzb : (z :: zs) ++ b ≠ [] := by simp
      have hrw : (x :: z :: zs) ++ b = x :: (z :: (zs ++ b)) := by simp
      rw [hrw]
      have hsplit : (z : Int) :: (zs ++ b) = (z :: zs) ++ b := by simp
      rw [argSel_cons_cons, hsplit, ih b (by simp) hb]
      rw [argSel_cons_cons x z zs]
      by_cases hA : cmp (argSel cmp b).2 (argSel cmp (z :: zs)).2
      · rw [if_pos hA]
        dsimp only
        by_cases hx : cmp (argSel cmp (z :: zs)).2 x
        · rw [if_pos hx]
          dsimp only
          have hbx : cmp (argSel cmp b).2 x := hT _ _ _ hA hx
          rw [if_pos hbx, if_pos hA]
          refine Prod.ext ?_ rfl
          simp only [List.length_cons]
          omega
        · rw [if_neg hx]
          dsimp only
          by_cases hbx : cmp (argSel cmp b).2 x
          · rw [if_pos hbx, if_pos hbx]
            refine Prod.ext ?_ rfl
            simp only [List.length_cons]
            omega
          · rw [if_neg hbx, if_neg hbx]
      · rw [if_neg hA]
        by_cases hx : cmp (argSel cmp (z :: zs)).2 x
        · rw [if_pos hx]
          dsimp only
          rw [if_neg hA]
        · have hbx : ¬cmp (argSel cmp b).2 x := hN _ _ _ hA hx
          rw [if_neg hx]
          dsimp only
          rw [if_neg hbx]

end ArgSelAppend

section ArgCombineLemmas

variable {cmp : Int → Int → Prop} [DecidableRel cmp]

theorem argCombine_cons (r : ArgRec) (rs : List ArgRec) (hrs : rs ≠ []) :
    argCombine cmp (r :: rs) =
      if cmp (argSel cmp (rs.map ArgRec.val)).2 r.val
      then { val := (argCombine cmp rs).val
             arg := r.n + (argCombine cmp rs).arg
             n := r.n + (argCombine cmp rs).n }
      else { val := r.val, arg := r.arg, n := r.n + (argCombine cmp rs).n } := by
  cases rs with
  | nil => exact absurd rfl hrs
  | cons r2 rs2 =>
    have hjlt : (argSel cmp ((r2 :: rs2).map ArgRec.val)).1 <
        ((r2 :: rs2).map ArgRec.val).length :=
      (argSel_getD _ (by simp)).2
    simp only [List.map_cons, List.length_cons, List.length_map] at hjlt
    simp only [argCombine, List.map_cons, argSel_cons_cons, exclCumsum, List.sum_cons]
    by_cases hc : cmp (argSel cmp (ArgRec.val r2 :: rs2.map ArgRec.val)).2 r.val
    · rw [if_pos hc, if_pos hc]
      simp only [List.getD_cons_succ, List.getD_cons_zero]
      simp only [ArgRec.mk.injEq]
      refine ⟨trivial, ?_, trivial⟩
      have hblt : (argSel cmp (r2.val :: List.map ArgRec.val rs2)).1 <
          (0 :: List.map (fun s => r2.n + s) (exclCumsum (List.map ArgRec.n rs2))).length := by
        simp only [List.length_cons, List.length_map, exclCumsum_length]
        omega
      have hoffs := getD_map (fun s => r.n + s)
        (0 :: List.map (fun s => r2.n + s) (exclCumsum (List.map ArgRec.n rs2)))
        (argSel cmp (r2.val :: List.map ArgRec.val rs2)).1 0 0 hblt
      simp only [List.map_cons] at hoffs
      rw [hoffs]
      omega
    · rw [if_neg hc, if_neg hc]
      dsimp only
      rfl

theorem argCombine_flatten
    (hT : ∀ a b c, cmp a b → cmp b c → cmp a c)
    (hN : ∀ a b c, ¬cmp a b → ¬cmp b c → ¬cmp a c) :
    ∀ (bs : List (List Int)), bs ≠ [] → (∀ g ∈ bs, g ≠ []) →
      argCombine cmp (bs.map (argChunkRec cmp)) = argChunkRec cmp bs.flatten := by
  intro bs
  induction bs with
  | nil => intro h _; exact absurd rfl h
  | cons b bs2 ih =>
    intro _ hne
    have hbne : b ≠ [] := hne b (List.mem_cons_self _ _)
    cases bs2 with
    | nil =>
      simp only [List.map_cons, List.map_nil, List.flatten_cons, List.flatten_nil,
        List.append_nil]
      simp [argCombine, argChunkRec, argSel, exclCumsum]
    | cons b2 bs3 =>
      have hne2 : ∀ g ∈ b2 :: bs3, g ≠ [] :=
        fun g hg => hne g (List.mem_cons_of_mem _ hg)
      have IH := ih (by simp) hne2
      have hb2ne : b2 ≠ [] := hne2 b2 (List.mem_cons_self _ _)
      have hflatne : (b2 :: bs3).flatten ≠ [] := by
        rw [List.flatten_cons]
        intro hcon
        exact hb2ne (List.append_eq_nil.mp hcon).1
      have hrsne : ((b2 :: bs3).map (argChunkRec cmp)) ≠ [] := by simp
      have hv2 : (argSel cmp (((b2 :: bs3).map (argChunkRec cmp)).map ArgRec.val)).2 =
          (argSel cmp ((b2 :: bs3).flatten)).2 := by
        have h1 : (((b2 :: bs3).map (argChunkRec cmp)).map ArgRec.val).getD
            (argSel cmp (((b2 :: bs3).map (argChunkRec cmp)).map ArgRec.val)).1 0 =
            (argSel cmp (((b2 :: bs3).map (argChunkRec cmp)).map ArgRec.val)).2 :=
          (argSel_getD _ (by simp)).1
        have h2 : (argCombine cmp ((b2 :: bs3).map (argChunkRec cmp))).val =
            (argSel cmp ((b2 :: bs3).flatten)).2 := by
          rw [IH]
          dsimp only [argChunkRec]
        rw [← h1]
        exact h2
      rw [List.map_cons, argCombine_cons _ _ hrsne, IH, hv2]
      conv_rhs => rw [List.flatten_cons]
      dsimp only [argChunkRec]
      rw [argSel_append hT hN b _ hbne hflatne]
      by_cases hc : cmp (argSel cmp ((b2 :: bs3).flatten)).2 (argSel cmp b).2
      · rw [if_pos hc, if_pos hc]
        dsimp only
        simp [ArgRec.mk.injEq, List.length_append]
      · rw [if_neg hc, if_neg hc]
        simp [ArgRec.mk.injEq, List.length_append]

end ArgCombineLemmas

/-- **C7**: merging argmax/argmin records along the reduced axis
(`_arg_combine`, lines 403-417): offsets are the exclusive prefix sum of the
element counts, each record's offset is added to its local index before the
extreme is re-selected, so for any 1-D sequence split at arbitrary block
boundaries into nonempty blocks, the combined record equals the record
computed over the unsplit sequence — same extreme value, same
first-occurrence global index (also when the extreme lies outside the first
block), same total count.  Stated for the argmax comparison (`np.argmax`
first-occurrence) and the argmin comparison simultaneously. -/
theorem C7_arg_combine_global_index (bs : List (List Int))
    (hbs : bs ≠ []) (hne : ∀ g ∈ bs, g ≠ []) :
    argCombine cmpMax (bs.map (argChunkRec cmpMax)) =
      argChunkRec cmpMax bs.flatten ∧
    argCombine cmpMin (bs.map (argChunkRec cmpMin)) =
      argChunkRec cmpMin bs.flatten := by
  have hTmax : ∀ a b c : Int, cmpMax a b → cmpMax b c → cmpMax a c :=
    fun _ _ _ h1 h2 => lt_trans h2 h1
  have hNmax : ∀ a b c : Int, ¬cmpMax a b → ¬cmpMax b c → ¬cmpMax a c :=
    fun _ _ _ h1 h2 h3 => h1 (lt_of_le_of_lt (not_lt.mp h2) h3)
  have hTmin : ∀ a b c : Int, cmpMin a b → cmpMin b c → cmpMin a c :=
    fun _ _ _ h1 h2 => lt_trans h1 h2
  have hNmin : ∀ a b c : Int, ¬cmpMin a b → ¬cmpMin b c → ¬cmpMin a c :=
    fun _ _ _ h1 h2 h3 => h1 (lt_of_lt_of_le h3 (not_lt.mp h2))
  exact ⟨argCombine_flatten hTmax hNmax bs hbs hne,
    argCombine_flatten hTmin hNmin bs hbs hne⟩

/-- Witness for C7 at blocks `[[1, 2], [5, 3]]`: the maximum 5 lies in the
second block and the combined argmax record is `(5, 2, 4)`; the minimum 1
gives `(1, 0, 4)`. -/
theorem C7_arg_combine_global_index_witness :
    (([[1, 2], [5, 3]] : List (List Int)) ≠ [] ∧
      (∀ g ∈ ([[1, 2], [5, 3]] : List (List Int)), g ≠ [])) ∧
    (argCombine cmpMax ([[1, 2], [5, 3]].map (argChunkRec cmpMax)) =
      argChunkRec cmpMax ([[1, 2], [5, 3]] : List (List Int)).flatten ∧
    argCombine cmpMin ([[1, 2], [5, 3]].map (argChunkRec cmpMin)) =
      argChunkRec cmpMin ([[1, 2], [5, 3]] : List (List Int)).flatten) :=
  ⟨⟨by decide, by decide⟩,
    C7_arg_combine_global_index [[1, 2], [5, 3]] (by decide) (by decide)⟩

section MomentLemmas

theorem powSum_nil (c : ℚ) (k : Nat) : powSum [] c k = 0 := rfl

theorem powSum_cons (x : ℚ) (l : List ℚ) (c : ℚ) (k : Nat) :
    powSum (x :: l) c k = (x - c) ^ k + powSum l c k := by
  simp [powSum]

theorem powSum_append (a b : List ℚ) (c : ℚ) (k : Nat) :
    powSum (a ++ b) c k = powSum a c k + powSum b c k := by
  simp [powSum]

theorem powSum_flatten (gs : List (List ℚ)) (c : ℚ) (k : Nat) :
    powSum gs.flatten c k = (gs.map (fun g => powSum g c k)).sum := by
  induction gs with
  | nil => simp [powSum]
  | cons g gs ih => simp [List.flatten_cons, powSum_append, ih]

theorem powSum_zero (l : List ℚ) (c : ℚ) : powSum l c 0 = (l.length : ℚ) := by
  induction l with
  | nil => simp [powSum]
  | cons x xs ih =>
    rw [powSum_cons, ih]
    simp only [List.length_cons]
    push_cast
    ring

theorem powSum_one (l : List ℚ) (c : ℚ) :
    powSum l c 1 = l.sum - (l.length : ℚ) * c := by
  induction l with
  | nil => simp [powSum]
  | cons x xs ih =>
    rw [powSum_cons, ih]
    simp only [List.sum_cons, List.length_cons]
    push_cast
    ring

theorem list_sum_map_add {γ : Type} (l : List γ) (f g : γ → ℚ) :
    (l.map (fun x => f x + g x)).sum = (l.map f).sum + (l.map g).sum := by
  induction l with
  | nil => simp
  | cons x xs ih => simp [ih]; ring

theorem list_sum_map_finset_sum {γ : Type} (l : List γ) (s : Finset Nat)
    (F : γ → Nat → ℚ) :
    (l.map (fun x => ∑ k ∈ s, F x k)).sum = ∑ k ∈ s, (l.map (fun x => F x k)).sum := by
  induction l with
  | nil => simp
  | cons x xs ih =>
    simp only [List.map_cons, List.sum_cons, ih]
    rw [← Finset.sum_add_distrib]

theorem powSum_binom (l : List ℚ) (m mu : ℚ) (o : Nat) :
    powSum l mu o = ∑ k ∈ Finset.range (o + 1),
      (m - mu) ^ k * powSum l m (o - k) * (Nat.choose o k : ℚ) := by
  induction l with
  | nil =>
    simp [powSum_nil]
  | cons x xs ih =>
    rw [powSum_cons, ih]
    have hx : x - mu = (m - mu) + (x - m) := by ring
    rw [hx, add_pow]
    have hcong : ∀ k ∈ Finset.range (o + 1),
        (m - mu) ^ k * powSum (x :: xs) m (o - k) * (Nat.choose o k : ℚ) =
        (m - mu) ^ k * (x - m) ^ (o - k) * (Nat.choose o k : ℚ) +
          (m - mu) ^ k * powSum xs m (o - k) * (Nat.choose o k : ℚ) := by
      intro k _
      rw [powSum_cons]
      ring
    rw [Finset.sum_congr rfl hcong, Finset.sum_add_distrib]

end MomentLemmas

theorem powSum_recentre (g : List ℚ) (hg : g ≠ []) (mu : ℚ) (o' : Nat) :
    powSum g mu (o' + 2) =
      powSum g (listMean g) (o' + 2)
      + (g.length : ℚ) * (listMean g - mu) ^ (o' + 2)
      + ∑ k ∈ Finset.Ico 1 (o' + 1),
          (Nat.choose (o' + 2) k : ℚ) *
            (powSum g (listMean g) (o' + 2 - k) * (listMean g - mu) ^ k) := by
  have hlen : (g.length : ℚ) ≠ 0 :=
    Nat.cast_ne_zero.mpr (fun h => hg (List.length_eq_zero.mp h))
  have hps1 : powSum g (listMean g) 1 = 0 := by
    rw [powSum_one, listMean]
    field_simp
  rw [powSum_binom g (listMean g) mu (o' + 2)]
  have hpeel : (o' : Nat) + 2 + 1 = (o' + 2) + 1 := rfl
  rw [Finset.sum_range_succ]
  have hpeel2 : (o' : Nat) + 2 = (o' + 1) + 1 := rfl
  rw [hpeel2, Finset.sum_range_succ]
  rw [Finset.range_eq_Ico, Finset.sum_eq_sum_Ico_succ_bot (by omega : 0 < o' + 1)]
  have e1 : o' + 1 + 1 - (o' + 1) = 1 := by omega
  have e2 : o' + 1 + 1 - (o' + 1 + 1) = 0 := by omega
  rw [e1, e2, hps1, powSum_zero]
  have hmid : ∑ k ∈ Finset.Ico 1 (o' + 1),
      (listMean g - mu) ^ k * powSum g (listMean g) (o' + 1 + 1 - k) *
        (Nat.choose (o' + 1 + 1) k : ℚ) =
      ∑ k ∈ Finset.Ico 1 (o' + 1),
        (Nat.choose (o' + 2) k : ℚ) *
          (powSum g (listMean g) (o' + 2 - k) * (listMean g - mu) ^ k) :=
    Finset.sum_congr rfl (fun k _ => by ring_nf)
  rw [hmid]
  simp only [pow_zero, Nat.choose_zero_right, Nat.choose_self, Nat.cast_one,
    Nat.sub_zero]
  ring

theorem cast_sum_list (s : List Nat) :
    ((s.sum : Nat) : ℚ) = (s.map (fun n : Nat => (n : ℚ))).sum := by
  induction s with
  | nil => simp
  | cons a t ih =>
    rw [List.sum_cons, List.map_cons, List.sum_cons, Nat.cast_add, ih]

theorem momentChunk_total_sum (gs : List (List ℚ)) :
    ((gs.map momentChunkRec).map MomentRec.total).sum = gs.flatten.sum := by
  rw [List.map_map, List.sum_flatten]
  rfl

theorem momentChunk_n_sum (gs : List (List ℚ)) :
    ((gs.map momentChunkRec).map MomentRec.n).sum = (gs.flatten.length : ℚ) := by
  rw [List.map_map, List.length_flatten, cast_sum_list, List.map_map]
  rfl

/-- **C8**: merging per-block `(count, sum, central moments)` records
through the moment combine formula (`moment_combine`/`_moment_helper`,
lines 265-295: each group's own order-`o` moment, plus `n·δ^o`, plus
binomial correction terms `C(o,k)·M(o-k)·δ^k` where `δ` is the group mean
minus the merged mean) reproduces the whole-dataset record exactly: for any
partition of the data into nonempty blocks (e.g. 2, 3 or 5 blocks), the
combined total, count, and every order-`o ≥ 2` central moment equal those
computed over the unsplit data, and `moment_agg` returns the whole-dataset
order-`o` moment divided by `count - ddof` (variance for `o = 2`); the
whole-dataset mean is `total/count`. -/
theorem C8_moment_combine (gs : List (List ℚ)) (hne : ∀ g ∈ gs, g ≠ []) :
    (momentCombine (gs.map momentChunkRec)).total =
      (momentChunkRec gs.flatten).total ∧
    (momentCombine (gs.map momentChunkRec)).n = (momentChunkRec gs.flatten).n ∧
    (∀ o, 2 ≤ o → (momentCombine (gs.map momentChunkRec)).M o =
      (momentChunkRec gs.flatten).M o) ∧
    (∀ o ddof, 2 ≤ o → momentAgg (gs.map momentChunkRec) o ddof =
      (momentChunkRec gs.flatten).M o /
        ((momentChunkRec gs.flatten).n - ddof)) := by
  have htot := momentChunk_total_sum gs
  have hn := momentChunk_n_sum gs
  have hmu : ((gs.map momentChunkRec).map MomentRec.total).sum /
      ((gs.map momentChunkRec).map MomentRec.n).sum = listMean gs.flatten := by
    rw [htot, hn]
    rfl
  have hM : ∀ o, 2 ≤ o →
      momentHelperM (gs.map momentChunkRec) (listMean gs.flatten) o =
        powSum gs.flatten (listMean gs.flatten) o := by
    intro o ho
    obtain ⟨o', rfl⟩ : ∃ o', o = o' + 2 := ⟨o - 2, by omega⟩
    rw [momentHelperM]
    have hA : (gs.map momentChunkRec).map (fun r => r.M (o' + 2)) =
        gs.map (fun g => powSum g (listMean g) (o' + 2)) := by
      rw [List.map_map]
      rfl
    have hB : (gs.map momentChunkRec).map
        (fun r => r.n * (r.total / r.n - listMean gs.flatten) ^ (o' + 2)) =
        gs.map (fun g =>
          (g.length : ℚ) * (listMean g - listMean gs.flatten) ^ (o' + 2)) := by
      rw [List.map_map]
      rfl
    have hC : ∀ k, (gs.map momentChunkRec).map
        (fun r => r.M (o' + 2 - k) * (r.total / r.n - listMean gs.flatten) ^ k) =
        gs.map (fun g =>
          powSum g (listMean g) (o' + 2 - k) *
            (listMean g - listMean gs.flatten) ^ k) := by
      intro k
      rw [List.map_map]
      rfl
    rw [hA, hB]
    have e1 : o' + 2 - 1 = o' + 1 := by omega
    rw [e1, powSum_flatten]
    have hrec : gs.map (fun g => powSum g (listMean gs.flatten) (o' + 2)) =
        gs.map (fun g =>
          powSum g (listMean g) (o' + 2)
          + (g.length : ℚ) * (listMean g - listMean gs.flatten) ^ (o' + 2)
          + ∑ k ∈ Finset.Ico 1 (o' + 1),
              (Nat.choose (o' + 2) k : ℚ) *
                (powSum g (listMean g) (o' + 2 - k) *
                  (listMean g - listMean gs.flatten) ^ k)) :=
      List.map_congr_left (fun g hg => powSum_recentre g (hne g hg) _ o')
    rw [hrec, list_sum_map_add, list_sum_map_add, list_sum_map_finset_sum]
    congr 1
    apply Finset.sum_congr rfl
    intro k _
    rw [hC k]
    exact (List.sum_map_mul_left _ _ _).symm
  refine ⟨htot, hn, ?_, ?_⟩
  · intro o ho
    show momentHelperM (gs.map momentChunkRec)
        (((gs.map momentChunkRec).map MomentRec.total).sum /
          ((gs.map momentChunkRec).map MomentRec.n).sum) o =
      powSum gs.flatten (listMean gs.flatten) o
    rw [hmu]
    exact hM o ho
  · intro o ddof ho
    show momentHelperM (gs.map momentChunkRec)
        (((gs.map momentChunkRec).map MomentRec.total).sum /
          ((gs.map momentChunkRec).map MomentRec.n).sum) o /
        (((gs.map momentChunkRec).map MomentRec.n).sum - ddof) =
      powSum gs.flatten (listMean gs.flatten) o / ((gs.flatten.length : ℚ) - ddof)
    rw [hmu, hM o ho, hn]

/-- Witness for C8 at `gs = [[1], [2, 3]]`, order 2, ddof 0: the merged
record reproduces the whole-dataset total 6, count 3, and second central
moment `Σ(x - 2)² = 2`, and the aggregate gives variance `2/3`. -/
theorem C8_moment_combine_witness :
    (∀ g ∈ ([[1], [2, 3]] : List (List ℚ)), g ≠ []) ∧
    ((momentCombine (([[1], [2, 3]] : List (List ℚ)).map momentChunkRec)).total =
      (momentChunkRec ([[1], [2, 3]] : List (List ℚ)).flatten).total ∧
    (momentCombine (([[1], [2, 3]] : List (List ℚ)).map momentChunkRec)).n =
      (momentChunkRec ([[1], [2, 3]] : List (List ℚ)).flatten).n ∧
    (∀ o, 2 ≤ o →
      (momentCombine (([[1], [2, 3]] : List (List ℚ)).map momentChunkRec)).M o =
      (momentChunkRec ([[1], [2, 3]] : List (List ℚ)).flatten).M o) ∧
    (∀ o ddof, 2 ≤ o →
      momentAgg (([[1], [2, 3]] : List (List ℚ)).map momentChunkRec) o ddof =
      (momentChunkRec ([[1], [2, 3]] : List (List ℚ)).flatten).M o /
        ((momentChunkRec ([[1], [2, 3]] : List (List ℚ)).flatten).n - ddof))) :=
  ⟨by simp, C8_moment_combine [[1], [2, 3]] (by simp)⟩
